import Mathlib

/-!
# Verification of the transcript-pipeline core

A shallow embedding, in Lean 4, of the job-lifecycle and transcription core of
the `transcript-pipeline` repository, together with proofs about the claims of
its specification.

Conventions of the embedding:

* Python `float` time values (segment boundaries, audio durations) are embedded
  as `ℚ`; all the arithmetic the embedded code performs on them (comparisons,
  addition of constants, `min`/`max`) is exact on the values that occur.
* Python strings are embedded as `List Char`; `str.lower` becomes
  `List.map Char.toLower`, `str.strip` trims ASCII whitespace at both ends,
  slicing `s[:20]` / `s[-20:]` becomes `List.take` / dropping all but the last
  20 elements, and the `in` operator becomes `List.IsInfix`.
* Fallible code is modelled with `Option`.
* The Python attribute `end` of `Segment` is named `endTime` here because `end`
  is a Lean keyword; `start` and `text` keep their names.
-/

/-- A transcription segment, from `src/models.py` (`Segment` dataclass):
`start`, `end` (seconds), `text`.  The field `endTime` embeds the Python
attribute `end`. -/
structure Segment where
  start : ℚ
  endTime : ℚ
  text : List Char
deriving DecidableEq, Repr

/-! ## CueDeduplicator — `src/src/caption_parser.py`, `deduplicate_segments` -/

/-- One iteration of the loop body of `deduplicate_segments`
(`caption_parser.py` lines 166-198).  `res` is the `result` list built so far,
`seg` the next cue of the start-sorted input.  Mirrors the source:

* identical text to `result[-1]`: extend the previous cue's end if the new end
  is later, drop the new cue;
* otherwise if the temporal overlap exceeds 50% of the new cue's own duration
  and one text contains the other: keep the longer text (replacing
  `result[-1]` when the new text is longer), drop the other cue;
* otherwise append the new cue. -/
def dedupStep (res : List Segment) (seg : Segment) : List Segment :=
  match res.getLast? with
  | none => res ++ [seg]
  | some prev =>
    if seg.text = prev.text then
      if prev.endTime < seg.endTime then
        res.dropLast ++ [⟨prev.start, seg.endTime, prev.text⟩]
      else
        res
    else
      let overlap := max 0 (min prev.endTime seg.endTime - max prev.start seg.start)
      let segDuration := seg.endTime - seg.start
      if 0 < segDuration ∧ 1/2 < overlap / segDuration then
        if prev.text <:+: seg.text then
          res.dropLast ++ [⟨prev.start, max prev.endTime seg.endTime, seg.text⟩]
        else if seg.text <:+: prev.text then
          res
        else
          res ++ [seg]
      else
        res ++ [seg]

/-- `deduplicate_segments` (`caption_parser.py` lines 146-200): sort the cues
by start time (Python `sorted` is a stable sort; embedded as a stable insertion
sort) and fold the loop body over them. -/
def deduplicate_segments (segments : List Segment) : List Segment :=
  (segments.insertionSort (fun a b => a.start ≤ b.start)).foldl dedupStep []

/-! ### Helper lemmas for `dedupStep` -/

/-- A list with `getLast? = some a` is its `dropLast` followed by `a`. -/
lemma eq_dropLast_append_of_getLast? {res : List Segment} {prev : Segment}
    (h : res.getLast? = some prev) : res = res.dropLast ++ [prev] :=
  (List.dropLast_append_getLast? prev h).symm

/-- Two lists that are infixes of each other are equal. -/
lemma infix_antisymm {l₁ l₂ : List Char} (h₁ : l₁ <:+: l₂) (h₂ : l₂ <:+: l₁) :
    l₁ = l₂ :=
  h₁.eq_of_length (le_antisymm h₁.length_le h₂.length_le)

/-- Processing a cue whose text equals the text of the last kept cue merges the
two: `result[-1]` keeps its start and text, the end time becomes the maximum of
the two end times (the source extends the end only when the new end is later),
and the new cue is dropped. -/
lemma dedupStep_same_text {res : List Segment} {prev : Segment} (seg : Segment)
    (hlast : res.getLast? = some prev) (htext : seg.text = prev.text) :
    dedupStep res seg = res.dropLast ++ [⟨prev.start, max prev.endTime seg.endTime, prev.text⟩] := by
  simp only [dedupStep, hlast]
  rw [if_pos htext]
  by_cases h : prev.endTime < seg.endTime
  · rw [if_pos h, max_eq_right h.le]
  · rw [if_neg h, max_eq_left (le_of_not_lt h)]
    exact eq_dropLast_append_of_getLast? hlast

/-- Processing a cue with text different from the last kept cue, positive
duration, temporal overlap above 50% of its own duration, where the previous
text is contained in the new text: the last kept cue is replaced by a segment
with the previous start, the later of the two end times, and the new (longer)
text. -/
lemma dedupStep_overlap_prev_in_seg {res : List Segment} {prev : Segment} (seg : Segment)
    (hlast : res.getLast? = some prev) (htext : seg.text ≠ prev.text)
    (hdur : 0 < seg.endTime - seg.start)
    (hov : 1/2 < (max 0 (min prev.endTime seg.endTime - max prev.start seg.start)) / (seg.endTime - seg.start))
    (hsub : prev.text <:+: seg.text) :
    dedupStep res seg = res.dropLast ++ [⟨prev.start, max prev.endTime seg.endTime, seg.text⟩] := by
  simp only [dedupStep, hlast]
  rw [if_neg htext, if_pos ⟨hdur, hov⟩, if_pos hsub]

/-- Processing a cue with text different from the last kept cue, positive
duration, temporal overlap above 50% of its own duration, where the new text is
contained in the previous text: the new cue is dropped and the result list is
unchanged — in particular the kept cue's end time is not extended. -/
lemma dedupStep_overlap_seg_in_prev {res : List Segment} {prev : Segment} (seg : Segment)
    (hlast : res.getLast? = some prev) (htext : seg.text ≠ prev.text)
    (hdur : 0 < seg.endTime - seg.start)
    (hov : 1/2 < (max 0 (min prev.endTime seg.endTime - max prev.start seg.start)) / (seg.endTime - seg.start))
    (hsub : seg.text <:+: prev.text) :
    dedupStep res seg = res := by
  simp only [dedupStep, hlast]
  rw [if_neg htext, if_pos ⟨hdur, hov⟩, if_neg, if_pos hsub]
  intro hsub'
  exact htext (infix_antisymm hsub' hsub).symm

/-! ### Claims C4 and C5 -/

/-- C4: In cue deduplication, whenever the next cue (in start-time order) has
text identical to the last kept cue, the two are merged into a single segment
keeping the last kept cue's start and text, with the end time extended to the
new cue's end (i.e. it becomes the maximum of the two end times; the source
leaves the previous, later end in place when the new end does not reach it),
and the new cue is discarded; in particular the cues `[0.0,2.0] "hello there"`
and `[1.8,3.0] "hello there"` collapse to the single cue
`[0.0,3.0] "hello there"`. -/
theorem cueDedup_identical_text_merges :
    (∀ (res : List Segment) (prev seg : Segment),
      res.getLast? = some prev → seg.text = prev.text →
      dedupStep res seg =
        res.dropLast ++ [⟨prev.start, max prev.endTime seg.endTime, prev.text⟩]) ∧
    deduplicate_segments [⟨0, 2, "hello there".data⟩, ⟨1.8, 3, "hello there".data⟩] =
      [⟨0, 3, "hello there".data⟩] := by
  constructor
  · intro res prev seg hlast htext
    exact dedupStep_same_text seg hlast htext
  · norm_num [deduplicate_segments, dedupStep, List.insertionSort, List.orderedInsert]

/-- Witness for `cueDedup_identical_text_merges`: the universally quantified
part applied at a concrete result list and cue. -/
theorem cueDedup_identical_text_merges_witness :
    dedupStep [⟨0, 2, "ab".data⟩] ⟨1, 3, "ab".data⟩ =
      [⟨(0 : ℚ), max 2 3, "ab".data⟩] := by
  have h := cueDedup_identical_text_merges.1 [⟨0, 2, "ab".data⟩] ⟨0, 2, "ab".data⟩
    ⟨1, 3, "ab".data⟩ rfl rfl
  simpa using h

/-- C5 counterexample: the cues `[0.0,4.0] "hello world"` and
`[3.0,4.5] "world"` satisfy every premise of the claim — the new cue has
positive duration, the temporal overlap (1s) exceeds 50% of the new cue's own
duration (1.5s), the texts differ and one is a substring of the other — yet the
kept result is the unchanged previous cue whose end time `4.0` is *not* the
later of the two end times (`4.5`): the source does not extend the kept cue's
end when the discarded cue is the one with the shorter text. -/
theorem cueDedup_overlap_counterexample :
    ("world".data ≠ "hello world".data) ∧
    ((0 : ℚ) < 4.5 - 3) ∧
    ((1/2 : ℚ) < (max 0 (min 4 4.5 - max 0 3)) / (4.5 - 3)) ∧
    ("world".data <:+: "hello world".data) ∧
    deduplicate_segments [⟨0, 4, "hello world".data⟩, ⟨3, 4.5, "world".data⟩] =
      [⟨0, 4, "hello world".data⟩] ∧
    ((4 : ℚ) ≠ max 4 4.5) := by
  refine ⟨by decide, by norm_num, by norm_num, by decide, ?_, by norm_num⟩
  norm_num [deduplicate_segments, dedupStep, List.insertionSort, List.orderedInsert]
  decide

/-- C5 (amended): for any next cue with positive duration whose overlap with
the last kept cue exceeds 50% of its own duration and whose text is a proper
substring relation with the last kept cue's text, the kept result is the cue
with the longer text and the other cue is discarded; when the longer text is
the new cue's, the kept segment keeps the previous cue's start and its end is
extended to the later of the two end times, while when the longer text is the
previous cue's the previous cue is kept entirely unchanged (its end time is not
extended).  The claim's concrete example still holds: `[0.0,4.0] "the quick
brown fox"` followed by `[3.0,4.0] "brown fox"` collapses to the longer text
with the later end time. -/
theorem cueDedup_overlap_substring_amended :
    (∀ (res : List Segment) (prev seg : Segment),
      res.getLast? = some prev → seg.text ≠ prev.text →
      0 < seg.endTime - seg.start →
      1/2 < (max 0 (min prev.endTime seg.endTime - max prev.start seg.start)) /
        (seg.endTime - seg.start) →
      (prev.text <:+: seg.text →
        dedupStep res seg =
          res.dropLast ++ [⟨prev.start, max prev.endTime seg.endTime, seg.text⟩]) ∧
      (seg.text <:+: prev.text → dedupStep res seg = res)) ∧
    deduplicate_segments
        [⟨0, 4, "the quick brown fox".data⟩, ⟨3, 4, "brown fox".data⟩] =
      [⟨0, max 4 4, "the quick brown fox".data⟩] := by
  constructor
  · intro res prev seg hlast htext hdur hov
    exact ⟨fun hsub => dedupStep_overlap_prev_in_seg seg hlast htext hdur hov hsub,
      fun hsub => dedupStep_overlap_seg_in_prev seg hlast htext hdur hov hsub⟩
  · norm_num [deduplicate_segments, dedupStep, List.insertionSort, List.orderedInsert]
    decide

/-- Witness for `cueDedup_overlap_substring_amended`: applied at a concrete
result list and cue (previous text contained in the new text). -/
theorem cueDedup_overlap_substring_amended_witness :
    dedupStep [⟨0, 4, "fox".data⟩] ⟨3, 4.5, "brown fox".data⟩ =
      [⟨(0 : ℚ), max 4 4.5, "brown fox".data⟩] := by
  have h := (cueDedup_overlap_substring_amended.1 [⟨0, 4, "fox".data⟩]
    ⟨0, 4, "fox".data⟩ ⟨3, 4.5, "brown fox".data⟩ rfl (by decide) (by norm_num)
    (by norm_num)).1 (by decide)
  simpa using h

/-! ## ChunkedTranscriptionEngine boundary deduplication —
`src/src/transcriber.py`, `WhisperTranscriber._deduplicate_overlap` -/

/-- Python `str.strip()`: remove ASCII whitespace from both ends. -/
def pyStrip (l : List Char) : List Char :=
  (((l.dropWhile Char.isWhitespace).reverse).dropWhile Char.isWhitespace).reverse

/-- Python `str.lower()` on the (ASCII) texts the pipeline handles. -/
def pyLower (l : List Char) : List Char :=
  l.map Char.toLower

/-- Python `s[-n:]`: the last `n` characters (all of `s` when it is shorter). -/
def takeRight (n : ℕ) (l : List Char) : List Char :=
  l.drop (l.length - n)

/-- The text-similarity heuristic of `_deduplicate_overlap`
(`transcriber.py` lines 244-249): with both texts lowercased and stripped,
test `last_text.endswith(new_text[:20]) or new_text.startswith(last_text[-20:])`. -/
def overlapTextMatch (lastRaw newRaw : List Char) : Bool :=
  let lastText := pyStrip (pyLower lastRaw)
  let newText := pyStrip (pyLower newRaw)
  (newText.take 20).isSuffixOf lastText || (takeRight 20 lastText).isPrefixOf newText

/-- `max(seg.end for seg in segments)` for a non-empty list (0 as the—never
used—value on `[]`). -/
def maxEndTime : List Segment → ℚ
  | [] => 0
  | s :: rest => rest.foldl (fun acc t => max acc t.endTime) s.endTime

/-- The `for seg in new_segments` filtering loop of `_deduplicate_overlap`
(`transcriber.py` lines 237-252): keep a segment starting at or after
`overlap_start + 0.5`; otherwise keep it only when its end exceeds
`last_prev_end + 0.5` and the text heuristic does not fire. -/
def dedupOverlapLoop (lastText : List Char) (lastPrevEnd overlapStart : ℚ) :
    List Segment → List Segment
  | [] => []
  | seg :: rest =>
    if overlapStart + 0.5 ≤ seg.start then
      seg :: dedupOverlapLoop lastText lastPrevEnd overlapStart rest
    else if lastPrevEnd + 0.5 < seg.endTime then
      if overlapTextMatch lastText seg.text then
        dedupOverlapLoop lastText lastPrevEnd overlapStart rest
      else
        seg :: dedupOverlapLoop lastText lastPrevEnd overlapStart rest
    else
      dedupOverlapLoop lastText lastPrevEnd overlapStart rest

/-- `_deduplicate_overlap(prev_segments, new_segments, overlap_start)`
(`transcriber.py` lines 221-252).  Returns `new_segments` unchanged when either
list is empty; otherwise runs the filtering loop against the maximum previous
end time and the final previous segment's text. -/
def deduplicate_overlap (prevSegments newSegments : List Segment)
    (overlapStart : ℚ) : List Segment :=
  match prevSegments.getLast? with
  | none => newSegments
  | some lastSeg =>
    if newSegments = [] then newSegments
    else dedupOverlapLoop lastSeg.text (maxEndTime prevSegments) overlapStart newSegments

/-- The loop is exactly a `filter` with the claim's keep-condition. -/
lemma dedupOverlapLoop_eq_filter (lastText : List Char) (lastPrevEnd overlapStart : ℚ) :
    ∀ l : List Segment,
      dedupOverlapLoop lastText lastPrevEnd overlapStart l =
        l.filter (fun seg =>
          decide (overlapStart + 0.5 ≤ seg.start) ||
            (decide (lastPrevEnd + 0.5 < seg.endTime) &&
              !(overlapTextMatch lastText seg.text)))
  | [] => rfl
  | seg :: rest => by
    simp only [dedupOverlapLoop, List.filter_cons]
    by_cases h₁ : overlapStart + 0.5 ≤ seg.start
    · simp [h₁, dedupOverlapLoop_eq_filter lastText lastPrevEnd overlapStart rest]
    · by_cases h₂ : lastPrevEnd + 0.5 < seg.endTime
      · by_cases h₃ : overlapTextMatch lastText seg.text
        · simp [h₁, h₂, h₃, dedupOverlapLoop_eq_filter lastText lastPrevEnd overlapStart rest]
        · simp [h₁, h₂, h₃, dedupOverlapLoop_eq_filter lastText lastPrevEnd overlapStart rest]
      · simp [h₁, h₂, dedupOverlapLoop_eq_filter lastText lastPrevEnd overlapStart rest]

/-! ### Claim C3 -/

/-- C3: In chunked transcription's boundary deduplication (dedup buffer 0.5s),
a new segment is kept iff it starts at or after `overlap_start + 0.5`, or its
end exceeds the maximum end of all previously kept segments by more than 0.5
and the prefix/suffix containment heuristic on the (lowercased, stripped)
texts fails; equivalently the result is a `filter` of the new segments, so the
relative order of kept segments is preserved (the result is a sublist of the
input). -/
theorem chunkDedup_keep_iff :
    (∀ (prev segs : List Segment) (overlapStart : ℚ) (lastSeg : Segment),
      prev.getLast? = some lastSeg →
      deduplicate_overlap prev segs overlapStart =
        segs.filter (fun seg =>
          decide (overlapStart + 0.5 ≤ seg.start) ||
            (decide (maxEndTime prev + 0.5 < seg.endTime) &&
              !(overlapTextMatch lastSeg.text seg.text)))) ∧
    (∀ (prev segs : List Segment) (overlapStart : ℚ),
      (deduplicate_overlap prev segs overlapStart).Sublist segs) := by
  constructor
  · intro prev segs overlapStart lastSeg hlast
    simp only [deduplicate_overlap, hlast]
    by_cases hsegs : segs = []
    · subst hsegs; simp
    · rw [if_neg hsegs]
      exact dedupOverlapLoop_eq_filter lastSeg.text (maxEndTime prev) overlapStart segs
  · intro prev segs overlapStart
    cases hlast : prev.getLast? with
    | none =>
      simp [deduplicate_overlap, hlast]
    | some lastSeg =>
      simp only [deduplicate_overlap, hlast]
      by_cases hsegs : segs = []
      · rw [if_pos hsegs]
      · rw [if_neg hsegs,
          dedupOverlapLoop_eq_filter lastSeg.text (maxEndTime prev) overlapStart segs]
        exact List.filter_sublist segs

/-- Witness for `chunkDedup_keep_iff`: one previous window ending at 10s with
final text `"so that is the plan"`, three shifted segments of the next window
(offset 10s): the first starts before `10.5` and ends before `10.5` (dropped),
the second starts before `10.5` but ends at `12` with a re-transcribed text
caught by the heuristic (dropped), the third starts at `11` (kept). -/
theorem chunkDedup_keep_iff_witness :
    deduplicate_overlap [⟨0, 10, "so that is the plan".data⟩]
      [⟨10, 10.3, "the plan".data⟩, ⟨10.2, 12, "is the plan".data⟩,
        ⟨11, 13, "next topic".data⟩] 10 =
      [⟨11, 13, "next topic".data⟩] := by
  have h := chunkDedup_keep_iff.1 [⟨0, 10, "so that is the plan".data⟩]
    [⟨10, 10.3, "the plan".data⟩, ⟨10.2, 12, "is the plan".data⟩,
      ⟨11, 13, "next topic".data⟩] 10 ⟨0, 10, "so that is the plan".data⟩ rfl
  rw [h]
  norm_num [List.filter, maxEndTime, overlapTextMatch, pyStrip, pyLower, takeRight]
  decide

/-! ## Chunk window computation — `src/src/transcriber.py`,
`WhisperTranscriber.transcribe`, and `src/src/config.py` -/

/-- `CHUNK_DURATION_SECONDS = 30 * 60` (`config.py` line 30). -/
def CHUNK_DURATION_SECONDS : ℚ := 30 * 60

/-- `CHUNK_OVERLAP_SECONDS = 5` (`config.py` line 31). -/
def CHUNK_OVERLAP_SECONDS : ℚ := 5

/-- `MIN_AUDIO_DURATION_FOR_CHUNKING = 30 * 60` (`config.py` line 32). -/
def MIN_AUDIO_DURATION_FOR_CHUNKING : ℚ := 30 * 60

/-- The dispatch in `WhisperTranscriber.transcribe` (`transcriber.py` line
270): chunked transcription is used unless
`duration <= 0 or duration <= MIN_AUDIO_DURATION_FOR_CHUNKING`. -/
def whisperUsesChunking (duration : ℚ) : Prop :=
  ¬(duration ≤ 0 ∨ duration ≤ MIN_AUDIO_DURATION_FOR_CHUNKING)

instance : DecidablePred whisperUsesChunking := fun _ => by
  unfold whisperUsesChunking; infer_instance

/-- The `while start < duration` chunk-building loop of
`WhisperTranscriber.transcribe` (`transcriber.py` lines 291-296): each window
is `(start, min(start + chunk_duration, duration) - start)` and `start`
advances by `effective_duration = chunk_duration - overlap`. -/
def chunkLoop (duration : ℚ) (start : ℚ) : List (ℚ × ℚ) :=
  if _h : start < duration then
    (start, min (start + CHUNK_DURATION_SECONDS) duration - start) ::
      chunkLoop duration (start + (CHUNK_DURATION_SECONDS - CHUNK_OVERLAP_SECONDS))
  else []
termination_by (⌈duration - start⌉).toNat
decreasing_by
  have h1 : (0 : ℚ) < duration - start := by linarith
  have h2 : (0 : ℤ) < ⌈duration - start⌉ := Int.ceil_pos.mpr h1
  have h3 : duration - (start + (CHUNK_DURATION_SECONDS - CHUNK_OVERLAP_SECONDS)) =
      (duration - start) - ((1795 : ℤ) : ℚ) := by
    simp only [CHUNK_DURATION_SECONDS, CHUNK_OVERLAP_SECONDS]
    push_cast
    ring
  simp only [h3, Int.ceil_sub_int]
  omega

/-- The full chunk window list of `WhisperTranscriber.transcribe`
(`start = 0.0` before the loop). -/
def chunkWindows (duration : ℚ) : List (ℚ × ℚ) :=
  chunkLoop duration 0

/-- Closed form of the chunk loop: starting from `s`, the loop produces
`⌈(d - s)/1795⌉` (as a natural number) windows at offsets `s + 1795·j`. -/
lemma chunkLoop_eq_range_map (d : ℚ) :
    ∀ (n : ℕ) (s : ℚ), (⌈(d - s) / 1795⌉).toNat = n →
      chunkLoop d s = (List.range n).map
        (fun (j : ℕ) => ((s + 1795 * (j : ℚ)),
          min (s + 1795 * (j : ℚ) + 1800) d - (s + 1795 * (j : ℚ)))) := by
  intro n
  induction n with
  | zero =>
    intro s hn
    have hnot : ¬ s < d := by
      intro hsd
      have hds : (0 : ℚ) < d - s := by linarith
      have h1 : (0 : ℚ) < (d - s) / 1795 := by positivity
      have := Int.ceil_pos.mpr h1
      omega
    rw [chunkLoop.eq_def, dif_neg hnot]
    simp
  | succ n ih =>
    intro s hn
    have hpos : (0 : ℤ) < ⌈(d - s) / 1795⌉ := by omega
    have hq : (0 : ℚ) < (d - s) / 1795 := by
      by_contra hq
      have : ⌈(d - s) / 1795⌉ ≤ (0 : ℤ) :=
        Int.ceil_le.mpr (by exact_mod_cast le_of_not_lt hq)
      omega
    have hsd : s < d := by nlinarith
    have hstep :
        (⌈(d - (s + (CHUNK_DURATION_SECONDS - CHUNK_OVERLAP_SECONDS))) / 1795⌉).toNat = n := by
      have heq : (d - (s + (CHUNK_DURATION_SECONDS - CHUNK_OVERLAP_SECONDS))) / 1795 =
          (d - s) / 1795 - ((1 : ℤ) : ℚ) := by
        simp only [CHUNK_DURATION_SECONDS, CHUNK_OVERLAP_SECONDS]
        push_cast
        ring
      rw [heq, Int.ceil_sub_int]
      omega
    rw [chunkLoop.eq_def, dif_pos hsd, ih _ hstep, List.range_succ_eq_map]
    simp only [List.map_cons, List.map_map]
    refine congrArg₂ List.cons ?_ ?_
    · norm_num [CHUNK_DURATION_SECONDS]
    · refine List.map_congr_left ?_
      intro j _
      simp only [Function.comp, CHUNK_DURATION_SECONDS, CHUNK_OVERLAP_SECONDS]
      push_cast
      rw [show s + (30 * 60 - 5) + 1795 * (j : ℚ) = s + 1795 * ((j : ℚ) + 1) by ring]

/-! ### Claim C2 -/

/-- C2: audio of duration at most 1800 s (30 min) is transcribed directly with
no chunking; for duration `d > 1800` the engine enumerates windows at offsets
`0, 1795, 2·1795, …` (stride `1800 − 5`) while `offset < d` — the number of
windows is `⌈d/1795⌉` — each of length `min(1800, d − offset)`, the final
window thus clipped to the audio end; in particular a 3660 s input yields
exactly the 3 windows `(0,1800), (1795,1800), (3590,70)`. -/
theorem chunking_threshold_and_windows :
    (∀ d : ℚ, d ≤ MIN_AUDIO_DURATION_FOR_CHUNKING → ¬ whisperUsesChunking d) ∧
    (∀ d : ℚ, MIN_AUDIO_DURATION_FOR_CHUNKING < d →
      whisperUsesChunking d ∧
      chunkWindows d = (List.range ((⌈d / 1795⌉).toNat)).map
        (fun (i : ℕ) => ((1795 * (i : ℚ)), min 1800 (d - 1795 * (i : ℚ)))) ∧
      (∀ i : ℕ, i < (⌈d / 1795⌉).toNat ↔ 1795 * (i : ℚ) < d)) ∧
    chunkWindows 3660 = [(0, 1800), (1795, 1800), (3590, 70)] := by
  have hwindows : ∀ d : ℚ, chunkWindows d = (List.range ((⌈d / 1795⌉).toNat)).map
      (fun (i : ℕ) => ((1795 * (i : ℚ)), min 1800 (d - 1795 * (i : ℚ)))) := by
    intro d
    have h := chunkLoop_eq_range_map d ((⌈(d - 0) / 1795⌉).toNat) 0 rfl
    rw [chunkWindows, h, show d - 0 = d by ring]
    refine List.map_congr_left ?_
    intro j _
    rw [zero_add, ← min_sub_sub_right, add_sub_cancel_left]
  refine ⟨?_, ?_, ?_⟩
  · intro d hd
    unfold whisperUsesChunking
    simp only [not_not]
    exact Or.inr hd
  · intro d hd
    refine ⟨?_, hwindows d, ?_⟩
    · unfold whisperUsesChunking MIN_AUDIO_DURATION_FOR_CHUNKING at *
      push_neg
      constructor <;> linarith
    · intro i
      rw [Int.lt_toNat, Int.lt_ceil, lt_div_iff₀ (by norm_num : (0:ℚ) < 1795),
        mul_comm]
      norm_cast
  · rw [hwindows 3660]
    have hceil : ⌈(3660 : ℚ) / 1795⌉ = 3 :=
      Int.ceil_eq_iff.mpr ⟨by norm_num, by norm_num⟩
    rw [hceil, show ((3 : ℤ)).toNat = 3 from rfl]
    simp only [List.range_succ, List.range_zero, List.map_append, List.map_cons,
      List.map_nil, List.nil_append, List.cons_append]
    norm_num

/-- Witness for `chunking_threshold_and_windows`: a 15-minute input is not
chunked; a 3660 s input is chunked and its first window offset `0` is within
the enumeration bound. -/
theorem chunking_threshold_and_windows_witness :
    (¬ whisperUsesChunking 900) ∧ whisperUsesChunking 3660 ∧
      ((0 : ℕ) < (⌈(3660 : ℚ) / 1795⌉).toNat ↔ (1795 * ((0 : ℕ) : ℚ)) < 3660) :=
  ⟨chunking_threshold_and_windows.1 900
      (by norm_num [MIN_AUDIO_DURATION_FOR_CHUNKING]),
    (chunking_threshold_and_windows.2.1 3660
      (by norm_num [MIN_AUDIO_DURATION_FOR_CHUNKING])).1,
    (chunking_threshold_and_windows.2.1 3660
      (by norm_num [MIN_AUDIO_DURATION_FOR_CHUNKING])).2.2 0⟩

/-! ## Progress callback arithmetic — `src/server.py` `transcription_progress`
(lines 294-301) and `src/src/services/pipeline_service.py` (lines 210-217) -/

/-- Python `int()` applied to a fraction: truncation toward zero. -/
def pyInt (q : ℚ) : ℤ :=
  if q < 0 then ⌈q⌉ else ⌊q⌋

/-- The percentage computed by the `transcription_progress` callback:
`int(25 + (current / total) * 45)` when `total > 0`, else `30`.  The Python
float arithmetic is embedded as exact rational arithmetic. -/
def transcription_progress_pct (current total : ℤ) : ℤ :=
  if 0 < total then pyInt (25 + ((current : ℚ) / (total : ℚ)) * 45) else 30

/-! ### Claim C8 -/

/-- C8: for `0 ≤ chunksDone ≤ chunksTotal` with `chunksTotal > 0`, the
intra-phase progress equals `floor(25 + (chunksDone/chunksTotal)·45)` and
always lies in the band `[25, 70]`. -/
theorem transcription_progress_band :
    ∀ current total : ℤ, 0 ≤ current → current ≤ total → 0 < total →
      transcription_progress_pct current total =
        ⌊(25 : ℚ) + ((current : ℚ) / (total : ℚ)) * 45⌋ ∧
      25 ≤ transcription_progress_pct current total ∧
      transcription_progress_pct current total ≤ 70 := by
  intro current total hc hct ht
  have htq : (0 : ℚ) < (total : ℚ) := by exact_mod_cast ht
  have hx0 : (0 : ℚ) ≤ (current : ℚ) / (total : ℚ) :=
    div_nonneg (by exact_mod_cast hc) htq.le
  have hx1 : (current : ℚ) / (total : ℚ) ≤ 1 :=
    (div_le_one htq).mpr (by exact_mod_cast hct)
  set q : ℚ := 25 + ((current : ℚ) / (total : ℚ)) * 45 with hq
  have hq25 : (25 : ℚ) ≤ q := by rw [hq]; nlinarith
  have hq70 : q ≤ (70 : ℚ) := by rw [hq]; nlinarith
  have hpct : transcription_progress_pct current total = ⌊q⌋ := by
    rw [transcription_progress_pct, if_pos ht, pyInt, if_neg (by linarith)]
  refine ⟨hpct, ?_, ?_⟩
  · rw [hpct]
    exact Int.le_floor.mpr (by exact_mod_cast hq25)
  · rw [hpct]
    have h1 : ((⌊q⌋ : ℚ)) ≤ 70 := le_trans (Int.floor_le q) hq70
    exact_mod_cast h1

/-- Witness for `transcription_progress_band`: 3 of 7 chunks done gives
`floor(25 + 3/7·45) = 44`, inside the band. -/
theorem transcription_progress_band_witness :
    transcription_progress_pct 3 7 = ⌊(25 : ℚ) + (((3 : ℤ) : ℚ) / ((7 : ℤ) : ℚ)) * 45⌋ ∧
      25 ≤ transcription_progress_pct 3 7 ∧ transcription_progress_pct 3 7 ≤ 70 :=
  transcription_progress_band 3 7 (by norm_num) (by norm_num) (by norm_num)

/-! ## Output-path containment — `src/src/utils.py`, `ensure_output_path` -/

/-- Split a character list on `'/'`. -/
def splitSlash : List Char → List (List Char)
  | [] => [[]]
  | c :: rest =>
    match splitSlash rest with
    | [] => [[c]]
    | h :: t => if c = '/' then [] :: h :: t else (c :: h) :: t

/-- POSIX-style lexical normalisation of path components: empty and `"."`
components are dropped, `".."` removes the previous component. -/
def normalizeComps (comps : List (List Char)) : List (List Char) :=
  comps.foldl (fun acc comp =>
    if comp = [] ∨ comp = ['.'] then acc
    else if comp = ['.', '.'] then acc.dropLast
    else acc ++ [comp]) []

/-- Render an absolute path string from components. -/
def renderPath (comps : List (List Char)) : List Char :=
  '/' :: List.intercalate ['/'] comps

/-- A model of `pathlib.Path.resolve()` for absolute paths in the absence of
symlinks: lexical normalisation. -/
def resolveLex (p : List Char) : List Char :=
  renderPath (normalizeComps (splitSlash p))

/-- `ensure_output_path(output_dir, filename)` (`utils.py` lines 68-92),
parameterised by the filesystem's resolution function:
`output_path = Path(output_dir).resolve()`,
`file_path = (output_path / filename).resolve()`, then the guard
`str(file_path).startswith(str(output_path))`; `none` models the raised
`ValueError`.  The `mkdir` side effect does not affect the returned value. -/
def ensure_output_path (resolve : List Char → List Char)
    (output_dir filename : List Char) : Option (List Char) :=
  let output_path := resolve output_dir
  let file_path := resolve (output_path ++ '/' :: filename)
  if output_path.isPrefixOf file_path then some file_path else none

/-! ### Claim C10 -/

/-- C10 counterexample: with the lexical resolver, output directory `/a/out`
and filename `../outzzz/f`, `ensure_output_path` *returns* `/a/outzzz/f` — the
string-prefix guard accepts it because the string `"/a/out"` is a prefix of
`"/a/outzzz/f"` — although that path lies outside the output directory: the
component list `[a, out]` of the output directory is not a prefix of the
component list `[a, outzzz, f]` of the returned path. -/
theorem ensure_output_path_counterexample :
    ensure_output_path resolveLex "/a/out".data "../outzzz/f".data =
      some "/a/outzzz/f".data ∧
    ¬ (normalizeComps (splitSlash (resolveLex "/a/out".data))) <+:
        (normalizeComps (splitSlash "/a/outzzz/f".data)) := by
  constructor
  · decide
  · decide

/-- C10 (amended): for every output directory and filename,
`ensure_output_path` either raises `ValueError` — exactly when the resolved
combined path's string does not start with the resolved output directory
string, e.g. for the traversal filename `../x` — or returns a path whose
string representation starts with the resolved output directory.  Because the
guard is a plain string-prefix test, a returned path may still lie outside the
output directory when a sibling directory's name extends the output
directory's name. -/
theorem ensure_output_path_string_guard :
    (∀ (resolve : List Char → List Char) (dir fn p : List Char),
      ensure_output_path resolve dir fn = some p →
      (resolve dir).isPrefixOf p = true) ∧
    (∀ (resolve : List Char → List Char) (dir fn : List Char),
      (resolve dir).isPrefixOf (resolve (resolve dir ++ '/' :: fn)) = false →
      ensure_output_path resolve dir fn = none) ∧
    ensure_output_path resolveLex "/a/out".data "../x".data = none := by
  refine ⟨?_, ?_, by decide⟩
  · intro resolve dir fn p hp
    rw [ensure_output_path] at hp
    by_cases h : (resolve dir).isPrefixOf (resolve (resolve dir ++ '/' :: fn)) = true
    · simp only [h, if_pos] at hp
      rw [← Option.some_inj.mp hp]
      exact h
    · simp only [Bool.not_eq_true] at h
      simp [h] at hp
  · intro resolve dir fn h
    rw [ensure_output_path]
    simp [h]

/-- Witness for `ensure_output_path_string_guard`: a benign nested filename is
returned and indeed starts with the resolved output directory. -/
theorem ensure_output_path_string_guard_witness :
    ("/a/out".data).isPrefixOf "/a/out/sub/file.md".data = true :=
  ensure_output_path_string_guard.1 resolveLex "/a/out".data "sub/file.md".data
    "/a/out/sub/file.md".data (by decide)

/-! ## Job status values — `src/server.py` (`JobStatus.status` comment line 82:
pending, downloading, transcribing, extracting, complete, error) -/

/-- The status strings used by the server, as a closed enumeration. -/
inductive Status
  | pending
  | downloading
  | transcribing
  | extracting
  | complete
  | error
deriving DecidableEq, Repr

/-- `complete` and `error` are the terminal statuses
(`server.py` checks `status in ('complete', 'error')`). -/
def Status.isTerminal : Status → Bool
  | .complete => true
  | .error => true
  | _ => false

/-! ## Job-registry sweep — claim C9.

The spec (§4.1) specifies `sweepExpired(now, ttl)` on the job registry
(`jobs` dict, `server.py` lines 61-67), but no sweep operation exists anywhere
under `src/`; the registry and its TTL configuration are described only by the
spec.  The sweep is therefore modelled from the spec below. -/

/-- Modelled from the spec: the part of a job record that `sweepExpired`
inspects — `status` and `completedAt` (a timestamp, or `none` while the job is
not terminal).  The sweep operation itself is missing from `src/`. -/
structure SweepRecord where
  status : Status
  completedAt : Option ℚ
deriving DecidableEq, Repr

/-- Modelled from the spec: a record is expired for `sweepExpired(now, ttl)`
when its status is terminal and its `completedAt` precedes `now − ttl`. -/
def SweepRecord.expired (r : SweepRecord) (now ttl : ℚ) : Bool :=
  r.status.isTerminal &&
    (match r.completedAt with
     | some c => decide (c < now - ttl)
     | none => false)

/-- Modelled from the spec: `sweepExpired(now, ttl)` — for `ttl ≤ 0` sweeping
is disabled; otherwise every expired record is removed and the count removed is
returned. -/
def sweepExpired (registry : List (ℕ × SweepRecord)) (now ttl : ℚ) :
    List (ℕ × SweepRecord) × ℕ :=
  if ttl ≤ 0 then (registry, 0)
  else
    let kept := registry.filter (fun p => !(p.2.expired now ttl))
    (kept, registry.length - kept.length)

/-- The Boolean expiry test agrees with the claim's description. -/
lemma expired_iff (r : SweepRecord) (now ttl : ℚ) :
    r.expired now ttl = true ↔
      r.status.isTerminal = true ∧ ∃ c, r.completedAt = some c ∧ c < now - ttl := by
  rw [SweepRecord.expired]
  cases hc : r.completedAt with
  | none => simp [hc]
  | some c => simp [hc]

/-- Removing the elements on which `e` holds leaves `length − countP e`
elements, i.e. the number removed is `countP e`. -/
lemma length_sub_length_filter_not {α : Type} (e : α → Bool) (l : List α) :
    l.length - (l.filter (fun a => !(e a))).length = l.countP e := by
  induction l with
  | nil => rfl
  | cons a t ih =>
    have hle := List.length_filter_le (fun a => !(e a)) t
    by_cases h : e a
    · simp [List.filter_cons, List.countP_cons, h]
      omega
    · simp [List.filter_cons, List.countP_cons, h]
      omega

/-! ### Claim C9 -/

/-- C9: with `ttl > 0`, `sweepExpired(now, ttl)` keeps exactly the records
that are not (terminal with `completedAt < now − ttl`) — in particular it
never removes a non-terminal record regardless of age — and returns the number
of records removed; with `ttl ≤ 0` sweeping is disabled and nothing is
removed. -/
theorem sweepExpired_spec :
    (∀ (registry : List (ℕ × SweepRecord)) (now ttl : ℚ), 0 < ttl →
      (∀ p : ℕ × SweepRecord,
        p ∈ (sweepExpired registry now ttl).1 ↔
          p ∈ registry ∧ ¬(p.2.status.isTerminal = true ∧
            ∃ c, p.2.completedAt = some c ∧ c < now - ttl)) ∧
      (∀ p ∈ registry, p.2.status.isTerminal = false →
        p ∈ (sweepExpired registry now ttl).1) ∧
      (sweepExpired registry now ttl).2 =
        registry.countP (fun p => p.2.expired now ttl)) ∧
    (∀ (registry : List (ℕ × SweepRecord)) (now ttl : ℚ), ttl ≤ 0 →
      sweepExpired registry now ttl = (registry, 0)) := by
  constructor
  · intro registry now ttl httl
    have hne : ¬ ttl ≤ 0 := not_le.mpr httl
    refine ⟨?_, ?_, ?_⟩
    · intro p
      rw [sweepExpired, if_neg hne]
      simp only [List.mem_filter, Bool.not_eq_true']
      rw [← expired_iff p.2 now ttl]
      simp
    · intro p hmem hterm
      rw [sweepExpired, if_neg hne]
      refine List.mem_filter.mpr ⟨hmem, ?_⟩
      simp [SweepRecord.expired, hterm]
    · rw [sweepExpired, if_neg hne]
      exact length_sub_length_filter_not (fun p => p.2.expired now ttl) registry
  · intro registry now ttl httl
    rw [sweepExpired, if_pos httl]

/-- Witness for `sweepExpired_spec`: a two-record registry at `now = 100`,
`ttl = 10`: the terminal record completed at time `50 < 90` is removed, the
ancient non-terminal record stays, and the removed count is 1; with
`ttl = 0` nothing happens. -/
theorem sweepExpired_spec_witness :
    ((1, ⟨Status.pending, none⟩) ∈
      (sweepExpired [(0, ⟨Status.complete, some 50⟩), (1, ⟨Status.pending, none⟩)]
        100 10).1) ∧
    (sweepExpired [(0, ⟨Status.complete, some 50⟩), (1, ⟨Status.pending, none⟩)]
        100 10).2 = 1 ∧
    sweepExpired [(0, ⟨Status.complete, some 50⟩)] 100 0 =
      ([(0, ⟨Status.complete, some 50⟩)], 0) := by
  have h := (sweepExpired_spec.1
    [(0, ⟨Status.complete, some 50⟩), (1, ⟨Status.pending, none⟩)] 100 10
    (by norm_num))
  refine ⟨h.2.1 (1, ⟨Status.pending, none⟩) (by decide) (by decide), ?_, ?_⟩
  · rw [h.2.2]
    norm_num [List.countP, List.countP.go, SweepRecord.expired, Status.isTerminal]
  · exact sweepExpired_spec.2 [(0, ⟨Status.complete, some 50⟩)] 100 0 le_rfl

/-! ## Transcriber factory — `src/src/transcriber.py`, `get_transcriber` -/

/-- The transcriber classes defined in `src/src/transcriber.py`:
`WhisperTranscriber` (local, with chunking and progress callbacks) and
`ElevenLabsTranscriber` (cloud, never invokes the progress callback).  No
captions transcriber class exists in the module. -/
inductive TranscriberKind
  | whisper
  | elevenlabs
deriving DecidableEq, Repr

/-- `get_transcriber(engine)` (`transcriber.py` lines 573-612): the engines
`"elevenlabs"` and `"scribe"` select `ElevenLabsTranscriber`; every other
engine string — including `"captions"` — falls through to the default branch
and selects `WhisperTranscriber`. -/
def get_transcriber (engine : String) : TranscriberKind :=
  if engine = "elevenlabs" ∨ engine = "scribe" then .elevenlabs
  else .whisper

/-! ### Claim C6 -/

/-- C6 (code bug): the factory maps the explicit engine value `"captions"` to
the local Whisper transcriber — it has no captions branch, and
`CaptionTranscriber` / `CaptionsUnavailableError` are not defined in
`transcriber.py` although `server.py`, `pipeline_service.py` and
`tests/test_transcriber.py` import them from it, and
`test_returns_caption_transcriber` asserts that
`get_transcriber(engine="captions")` is a `CaptionTranscriber`.  The server's
captions-only mode then calls `transcriber.transcribe(audio_path="", url=url)`
on a `WhisperTranscriber`, whose `transcribe` accepts no `url` keyword, so the
job errors out instead of using a captions engine. -/
theorem get_transcriber_captions_selects_whisper :
    get_transcriber "captions" = TranscriberKind.whisper ∧
    get_transcriber "elevenlabs" = TranscriberKind.elevenlabs ∧
    get_transcriber "scribe" = TranscriberKind.elevenlabs := by
  refine ⟨?_, ?_, ?_⟩ <;> rw [get_transcriber] <;> simp

/-! ## The orchestrator — `src/server.py`, `process_video_async`.

The pipeline is modelled as the sequence of `_update_and_broadcast` calls it
performs, each reduced to the job-dict fields relevant to the claims
(`status`, `progress`, `completed_at`); `message`, `metadata` and path fields
are omitted.  Collaborator outcomes (captions availability, audio duration,
extraction settings) are the environment.  The caption transcriber used by the
`auto` path is missing from `src/` (its class is imported but not defined);
per the spec it either returns segments or raises the distinguished
captions-unavailable error, which is the `captionsAvailable` environment
flag. -/

/-- The fields of one job update
(`update_job` merges them into the job dict under the lock). -/
structure Upd where
  status : Option Status := none
  progress : Option ℤ := none
  setsCompletedAt : Bool := false
deriving DecidableEq, Repr

/-- An update carrying a status and a progress percentage. -/
def updSP (s : Status) (p : ℤ) : Upd := { status := some s, progress := some p }

/-- An update carrying only a progress percentage. -/
def updP (p : ℤ) : Upd := { progress := some p }

/-- The final successful update (`server.py` lines 491-497). -/
def completeUpd : Upd :=
  { status := some .complete, progress := some 100, setsCompletedAt := true }

/-- The exception-handler update (`server.py` lines 499-505); it carries no
progress. -/
def errorUpd : Upd := { status := some .error, setsCompletedAt := true }

/-- Environment of one pipeline run: collaborator outcomes and options. -/
structure PipelineEnv where
  captionsAvailable : Bool
  audioDuration : ℚ
  extract : Bool
  hasApiKey : Bool

/-- Engine configuration dispatch of `process_video_async`:
`transcription_engine == 'auto'`, `== 'captions'`, or any other string. -/
inductive EngineCfg
  | auto
  | captions
  | explicit (engine : String)

/-- The `(current, total)` arguments with which `WhisperTranscriber.transcribe`
invokes its progress callback (`transcriber.py` lines 270-341): short audio
(or unknown duration) reports `(0,1)` then `(1,1)`; chunked audio reports
`(i, total)` before each chunk and `(total, total)` at the end. -/
def whisperCallbackArgs (duration : ℚ) : List (ℤ × ℤ) :=
  if duration ≤ 0 ∨ duration ≤ MIN_AUDIO_DURATION_FOR_CHUNKING then
    [(0, 1), (1, 1)]
  else
    (List.range (chunkWindows duration).length).map
      (fun (i : ℕ) => ((i : ℤ), ((chunkWindows duration).length : ℤ))) ++
    [(((chunkWindows duration).length : ℤ), ((chunkWindows duration).length : ℤ))]

/-- The job updates produced by the transcription progress callback during
`transcriber.transcribe`: the ElevenLabs transcriber never invokes the
callback; the Whisper transcriber reports per-chunk progress, which the
server's `transcription_progress` turns into a progress-only update. -/
def callbackUpds (k : TranscriberKind) (duration : ℚ) : List Upd :=
  match k with
  | .elevenlabs => []
  | .whisper => (whisperCallbackArgs duration).map
      (fun ct => updP (transcription_progress_pct ct.1 ct.2))

/-- The updates of the extraction step (`server.py` lines 440-483):
status `extracting` at 75%, then 80% and 95% with an API key, only 95%
without; nothing when extraction is disabled. -/
def extractUpds (extract hasApiKey : Bool) : List Upd :=
  if extract then
    updSP .extracting 75 :: (if hasApiKey then [updP 80, updP 95] else [updP 95])
  else []

/-- The full update sequence of `process_video_async` for each engine
configuration, on a run where every collaborator call succeeds
(`server.py` lines 172-505):

* `auto`, captions available: captions are extracted, no audio download;
* `auto`, captions unavailable: audio fallback with the default
  `caption_fallback_engine = 'mlx-whisper'`, which `get_transcriber` maps to
  the Whisper transcriber;
* explicit `captions`: the factory returns a Whisper transcriber and
  `transcribe(audio_path="", url=url)` raises `TypeError` (`transcribe` has no
  `url` parameter), so the run ends in the error update;
* any other explicit engine: audio download and transcription with the
  selected transcriber. -/
def serverUpdates (cfg : EngineCfg) (env : PipelineEnv) : List Upd :=
  match cfg with
  | .auto =>
    if env.captionsAvailable then
      [updSP .downloading 5, updP 10, updSP .transcribing 15, updP 70, updP 70]
        ++ extractUpds env.extract env.hasApiKey ++ [completeUpd]
    else
      [updSP .downloading 5, updP 10, updSP .transcribing 15,
        updSP .downloading 15, updP 20, updSP .transcribing 25]
        ++ callbackUpds (get_transcriber "mlx-whisper") env.audioDuration
        ++ [updP 70, updP 70]
        ++ extractUpds env.extract env.hasApiKey ++ [completeUpd]
  | .captions =>
      [updSP .downloading 0, updP 10, updSP .transcribing 15, errorUpd]
  | .explicit engine =>
      [updSP .downloading 0, updP 20, updSP .transcribing 25, updP 30]
        ++ callbackUpds (get_transcriber engine) env.audioDuration
        ++ [updP 70, updP 70]
        ++ extractUpds env.extract env.hasApiKey ++ [completeUpd]

/-- The progress values successively recorded in the job registry by a list of
updates. -/
def progressValues (l : List Upd) : List ℤ :=
  l.filterMap (·.progress)

/-! ### Arithmetic facts about the progress callback percentage -/

/-- For non-negative `current` and positive `total` the truncation is a
floor. -/
lemma pct_eq_floor {c t : ℤ} (hc : 0 ≤ c) (ht : 0 < t) :
    transcription_progress_pct c t = ⌊(25 : ℚ) + ((c : ℚ) / (t : ℚ)) * 45⌋ := by
  have hx0 : (0 : ℚ) ≤ (c : ℚ) / (t : ℚ) :=
    div_nonneg (by exact_mod_cast hc) (by exact_mod_cast ht.le)
  rw [transcription_progress_pct, if_pos ht, pyInt, if_neg (by nlinarith)]

/-- The callback percentage is at least 25. -/
lemma pct_lb {c t : ℤ} (hc : 0 ≤ c) (ht : 0 < t) :
    25 ≤ transcription_progress_pct c t := by
  have hx0 : (0 : ℚ) ≤ (c : ℚ) / (t : ℚ) :=
    div_nonneg (by exact_mod_cast hc) (by exact_mod_cast ht.le)
  rw [pct_eq_floor hc ht]
  exact Int.le_floor.mpr (by push_cast; nlinarith)

/-- The callback percentage is at most 70 while `current ≤ total`. -/
lemma pct_ub {c t : ℤ} (hc : 0 ≤ c) (hct : c ≤ t) (ht : 0 < t) :
    transcription_progress_pct c t ≤ 70 := by
  have htq : (0 : ℚ) < (t : ℚ) := by exact_mod_cast ht
  have hx1 : (c : ℚ) / (t : ℚ) ≤ 1 := (div_le_one htq).mpr (by exact_mod_cast hct)
  rw [pct_eq_floor hc ht]
  have h1 : ((⌊(25 : ℚ) + ((c : ℚ) / (t : ℚ)) * 45⌋ : ℚ)) ≤ 70 :=
    le_trans (Int.floor_le _) (by nlinarith)
  exact_mod_cast h1

/-- The callback percentage is monotone in the completed-chunk count. -/
lemma pct_mono {c₁ c₂ t : ℤ} (h0 : 0 ≤ c₁) (h12 : c₁ ≤ c₂) (ht : 0 < t) :
    transcription_progress_pct c₁ t ≤ transcription_progress_pct c₂ t := by
  have htq : (0 : ℚ) < (t : ℚ) := by exact_mod_cast ht
  rw [pct_eq_floor h0 ht, pct_eq_floor (le_trans h0 h12) ht]
  refine Int.floor_le_floor ?_
  have hdiv : (c₁ : ℚ) / (t : ℚ) ≤ (c₂ : ℚ) / (t : ℚ) :=
    (div_le_div_iff_of_pos_right htq).mpr (by exact_mod_cast h12)
  nlinarith [hdiv]

/-- No chunk done yet reports exactly 25. -/
lemma pct_zero {t : ℤ} (ht : 0 < t) : transcription_progress_pct 0 t = 25 := by
  rw [pct_eq_floor le_rfl ht]
  norm_num

/-- All chunks done reports exactly 70. -/
lemma pct_self {t : ℤ} (ht : 0 < t) : transcription_progress_pct t t = 70 := by
  have htq : ((t : ℚ)) ≠ 0 := by
    have : (0 : ℚ) < (t : ℚ) := by exact_mod_cast ht
    linarith
  rw [pct_eq_floor ht.le ht, div_self htq]
  norm_num

/-- The number of chunk windows is `⌈duration/1795⌉` (as a natural number). -/
lemma chunkWindows_length (d : ℚ) :
    (chunkWindows d).length = (⌈d / 1795⌉).toNat := by
  have h := chunkLoop_eq_range_map d ((⌈(d - 0) / 1795⌉).toNat) 0 rfl
  rw [sub_zero] at h
  rw [chunkWindows, h, List.length_map, List.length_range]

/-- Audio longer than the chunking threshold yields at least one window. -/
lemma chunkWindows_length_pos {d : ℚ}
    (hd : MIN_AUDIO_DURATION_FOR_CHUNKING < d) :
    1 ≤ (chunkWindows d).length := by
  rw [chunkWindows_length]
  have hd0 : (0 : ℚ) < d := by
    rw [MIN_AUDIO_DURATION_FOR_CHUNKING] at hd
    linarith
  have h1 : (0 : ℚ) < d / 1795 := by positivity
  have h2 : (0 : ℤ) < ⌈d / 1795⌉ := Int.ceil_pos.mpr h1
  omega

/-- Concatenating two non-decreasing integer lists separated by a pivot value
yields a non-decreasing list. -/
lemma pairwise_le_append_pivot {l₁ l₂ : List ℤ} (b : ℤ)
    (h₁ : List.Pairwise (· ≤ ·) l₁) (h₂ : List.Pairwise (· ≤ ·) l₂)
    (hub : ∀ x ∈ l₁, x ≤ b) (hlb : ∀ y ∈ l₂, b ≤ y) :
    List.Pairwise (· ≤ ·) (l₁ ++ l₂) :=
  List.pairwise_append.mpr ⟨h₁, h₂, fun x hx y hy => (hub x hx).trans (hlb y hy)⟩

/-- The progress values recorded by the transcription callback: for each
engine they form a non-decreasing sequence inside the band `[25, 70]`; when
non-empty they start at exactly 25 and end at exactly 70. -/
lemma callback_pcts_block (k : TranscriberKind) (d : ℚ) :
    List.Pairwise (· ≤ ·) (progressValues (callbackUpds k d)) ∧
    (∀ x ∈ progressValues (callbackUpds k d), 25 ≤ x ∧ x ≤ 70) ∧
    (∀ x ∈ (progressValues (callbackUpds k d)).head?, x = 25) ∧
    (∀ x ∈ (progressValues (callbackUpds k d)).getLast?, x = 70) := by
  cases k with
  | elevenlabs => simp [callbackUpds, progressValues]
  | whisper =>
    have hpv : progressValues (callbackUpds .whisper d) =
        (whisperCallbackArgs d).map
          (fun ct => transcription_progress_pct ct.1 ct.2) := by
      rw [callbackUpds, progressValues, List.filterMap_map]
      exact congrFun (List.filterMap_eq_map _) _
    rw [hpv, whisperCallbackArgs]
    by_cases hd : d ≤ 0 ∨ d ≤ MIN_AUDIO_DURATION_FOR_CHUNKING
    · rw [if_pos hd]
      simp only [List.map_cons, List.map_nil]
      rw [pct_zero (by norm_num), pct_self (by norm_num)]
      refine ⟨?_, ?_, ?_, ?_⟩ <;> simp [List.getLast?]
    · rw [if_neg hd]
      push_neg at hd
      have hd' : MIN_AUDIO_DURATION_FOR_CHUNKING < d := hd.2
      obtain ⟨m, hm⟩ : ∃ m, (chunkWindows d).length = m + 1 :=
        ⟨(chunkWindows d).length - 1, by
          have := chunkWindows_length_pos hd'
          omega⟩
      set n : ℕ := (chunkWindows d).length with hn
      have hN : (0 : ℤ) < (n : ℤ) := by
        have := chunkWindows_length_pos hd'
        omega
      rw [List.map_append, List.map_map]
      have hmono : List.Pairwise (· ≤ ·)
          ((List.range n).map
            ((fun ct : ℤ × ℤ => transcription_progress_pct ct.1 ct.2) ∘
              (fun i : ℕ => ((i : ℤ), (n : ℤ))))) := by
        refine List.pairwise_map.mpr ?_
        refine (List.pairwise_lt_range n).imp ?_
        intro i j hij
        simp only [Function.comp]
        exact pct_mono (by positivity) (by exact_mod_cast hij.le) hN
      have hmem_bounds : ∀ x ∈ (List.range n).map
          ((fun ct : ℤ × ℤ => transcription_progress_pct ct.1 ct.2) ∘
            (fun i : ℕ => ((i : ℤ), (n : ℤ)))), 25 ≤ x ∧ x ≤ 70 := by
        intro x hx
        obtain ⟨i, hi, rfl⟩ := List.mem_map.mp hx
        have hi' : i < n := List.mem_range.mp hi
        simp only [Function.comp]
        exact ⟨pct_lb (by positivity) hN,
          pct_ub (by positivity) (by exact_mod_cast hi'.le) hN⟩
      have hlast : transcription_progress_pct (n : ℤ) (n : ℤ) = 70 := pct_self hN
      refine ⟨?_, ?_, ?_, ?_⟩
      · refine pairwise_le_append_pivot 70 hmono (by simp) ?_ ?_
        · intro x hx
          exact (hmem_bounds x hx).2
        · intro y hy
          simp only [List.map_cons, List.map_nil, List.mem_singleton] at hy
          subst hy
          rw [hlast]
      · intro x hx
        rcases List.mem_append.mp hx with hx | hx
        · exact hmem_bounds x hx
        · simp only [List.map_cons, List.map_nil, List.mem_singleton] at hx
          subst hx
          rw [hlast]
          norm_num
      · intro x hx
        rw [hm, List.range_succ_eq_map] at hx
        simp only [List.map_cons, List.cons_append, List.head?_cons,
          Option.mem_def, Option.some_inj, Function.comp, Nat.cast_zero] at hx
        rw [← hx]
        exact pct_zero (by exact_mod_cast Nat.succ_pos m)
      · intro x hx
        simp only [List.map_cons, List.map_nil, List.getLast?_concat,
          Option.mem_def, Option.some_inj] at hx
        rw [← hx]
        exact hlast

/-- The progress values of the extraction step followed by the final 100%:
non-decreasing and all at least 70. -/
lemma tail_block (e k : Bool) :
    List.Pairwise (· ≤ ·) (progressValues (extractUpds e k) ++ [100]) ∧
    ∀ x ∈ progressValues (extractUpds e k) ++ [100], 70 ≤ x ∧ x ≤ 100 := by
  cases e <;> cases k <;> exact ⟨by decide, by decide⟩

/-- `progressValues` distributes over concatenation. -/
lemma progressValues_append (l₁ l₂ : List Upd) :
    progressValues (l₁ ++ l₂) = progressValues l₁ ++ progressValues l₂ := by
  simp [progressValues]

/-! ### Claim C1 -/

/-- C1 counterexample: with an explicitly configured audio engine
(`transcription_engine = "whisper"`) and a short (100 s) audio file, the
recorded progress sequence is `[0, 20, 25, 30, 25, 70, 70, 70, 100]`: the update
"Transcribing audio with …" records 30 and the whisper transcriber's first
progress callback `(0, 1)` then records `int(25 + 0·45) = 25`, a decrease
while the job is still non-terminal — so the claimed monotonicity fails on the
explicitly-configured-engine execution path. -/
theorem progress_monotonicity_counterexample :
    ¬ List.Pairwise (· ≤ ·)
      (progressValues (serverUpdates (.explicit "whisper")
        ⟨true, 100, false, false⟩)) := by
  have hargs : whisperCallbackArgs 100 = [(0, 1), (1, 1)] := by
    rw [whisperCallbackArgs, if_pos]
    right
    norm_num [MIN_AUDIO_DURATION_FOR_CHUNKING]
  have hwhisper : get_transcriber "whisper" = .whisper := by
    rw [get_transcriber]
    simp
  have hcb : callbackUpds (get_transcriber "whisper") 100 = [updP 25, updP 70] := by
    rw [hwhisper, callbackUpds, hargs]
    simp only [List.map_cons, List.map_nil]
    rw [pct_zero (by norm_num), pct_self (by norm_num)]
  have hpv : progressValues (serverUpdates (.explicit "whisper")
      ⟨true, 100, false, false⟩) = [0, 20, 25, 30, 25, 70, 70, 70, 100] := by
    rw [serverUpdates, hcb]
    simp [progressValues, extractUpds, updSP, updP, completeUpd]
  rw [hpv]
  decide

/-- C1 (amended): while a job's status is non-terminal the recorded progress
values are non-decreasing on the auto-mode paths (captions and audio fallback)
and on the explicit captions path, and on an explicitly configured audio
engine whose transcriber never reports per-chunk progress (ElevenLabs); on an
explicitly configured audio engine with the local Whisper transcriber, the
single exception is that the update recording 30 ("Transcribing audio
with …") is followed by the first chunk callback recording 25 — every
adjacent step of every explicit-engine run either does not decrease or is
exactly that 30-to-25 step. -/
theorem progress_monotonicity_amended :
    (∀ env : PipelineEnv,
      List.Pairwise (· ≤ ·) (progressValues (serverUpdates .auto env))) ∧
    (∀ env : PipelineEnv,
      List.Pairwise (· ≤ ·) (progressValues (serverUpdates .captions env))) ∧
    (∀ (engine : String) (env : PipelineEnv),
      List.Chain' (fun a b => a ≤ b ∨ (a = 30 ∧ b = 25))
        (progressValues (serverUpdates (.explicit engine) env))) ∧
    (∀ (engine : String) (env : PipelineEnv),
      get_transcriber engine = .elevenlabs →
      List.Pairwise (· ≤ ·) (progressValues (serverUpdates (.explicit engine) env))) := by
  have hcomplete : progressValues [completeUpd] = [100] := by decide
  have h7070 : progressValues [updP 70, updP 70] = [70, 70] := by decide
  have h70mem : ∀ y : ℤ, y ∈ ([70, 70] : List ℤ) → y = 70 := by decide
  refine ⟨?_, ?_, ?_, ?_⟩
  · intro env
    rw [serverUpdates]
    by_cases hca : env.captionsAvailable
    · rw [if_pos hca]
      simp only [progressValues_append, List.append_assoc, hcomplete]
      rw [show progressValues [updSP .downloading 5, updP 10, updSP .transcribing 15,
        updP 70, updP 70] = [5, 10, 15, 70, 70] from by decide]
      refine pairwise_le_append_pivot 70 (by decide) (tail_block env.extract env.hasApiKey).1
        (by decide) ?_
      intro y hy
      exact ((tail_block env.extract env.hasApiKey).2 y hy).1
    · rw [if_neg hca]
      simp only [progressValues_append, List.append_assoc, hcomplete]
      rw [show progressValues [updSP .downloading 5, updP 10, updSP .transcribing 15,
        updSP .downloading 15, updP 20, updSP .transcribing 25] = [5, 10, 15, 15, 20, 25]
        from by decide, h7070]
      have hblock := callback_pcts_block (get_transcriber "mlx-whisper") env.audioDuration
      have htail := tail_block env.extract env.hasApiKey
      refine pairwise_le_append_pivot 25 (by decide) ?_ (by decide) ?_
      · refine pairwise_le_append_pivot 70 hblock.1 ?_
          (fun x hx => (hblock.2.1 x hx).2) ?_
        · refine pairwise_le_append_pivot 70 (by decide) htail.1 (by decide) ?_
          intro y hy
          exact (htail.2 y hy).1
        · intro y hy
          rcases List.mem_append.mp hy with hy | hy
          · rw [h70mem y hy]
          · exact (htail.2 y hy).1
      · intro y hy
        rcases List.mem_append.mp hy with hy | hy
        · exact (hblock.2.1 y hy).1
        · rcases List.mem_append.mp hy with hy | hy
          · rw [h70mem y hy]
            norm_num
          · exact le_trans (by norm_num) (htail.2 y hy).1
  · intro env
    rw [serverUpdates]
    decide
  · intro engine env
    rw [serverUpdates]
    simp only [progressValues_append, List.append_assoc, hcomplete]
    rw [show progressValues [updSP .downloading 0, updP 20, updSP .transcribing 25,
      updP 30] = [0, 20, 25, 30] from by decide, h7070]
    have hblock := callback_pcts_block (get_transcriber engine) env.audioDuration
    have htail := tail_block env.extract env.hasApiKey
    have htail70 : List.Pairwise (· ≤ ·)
        ([70, 70] ++ (progressValues (extractUpds env.extract env.hasApiKey) ++ [100])) := by
      refine pairwise_le_append_pivot 70 (by decide) htail.1 (by decide) ?_
      intro y hy
      exact (htail.2 y hy).1
    have hR : ∀ a b : ℤ, a ≤ b → (a ≤ b ∨ (a = 30 ∧ b = 25)) := fun a b h => Or.inl h
    have hfront : List.Chain' (fun a b : ℤ => a ≤ b ∨ (a = 30 ∧ b = 25)) [0, 20, 25, 30] := by
      refine List.chain'_cons.mpr ⟨Or.inl (by norm_num), ?_⟩
      refine List.chain'_cons.mpr ⟨Or.inl (by norm_num), ?_⟩
      refine List.chain'_cons.mpr ⟨Or.inl (by norm_num), ?_⟩
      exact List.chain'_singleton 30
    refine List.chain'_append.mpr ⟨hfront, ?_, ?_⟩
    · refine List.chain'_append.mpr ⟨hblock.1.chain'.imp hR, htail70.chain'.imp hR, ?_⟩
      intro x hx y hy
      simp only [List.cons_append, List.head?_cons, Option.mem_def,
        Option.some_inj] at hy
      left
      rw [hblock.2.2.2 x hx, ← hy]
    · intro x hx y hy
      have hx30 : 30 = x := by simpa using hx
      rw [List.head?_append] at hy
      cases hcb : (progressValues (callbackUpds (get_transcriber engine)
          env.audioDuration)).head? with
      | some z =>
        rw [hcb] at hy
        simp only [Option.or] at hy
        have hyz : z = y := by simpa using hy
        right
        refine ⟨hx30.symm, ?_⟩
        rw [← hyz]
        exact hblock.2.2.1 z (by rw [hcb]; rfl)
      | none =>
        rw [hcb] at hy
        simp only [Option.or] at hy
        have hy70 : 70 = y := by simpa using hy
        left
        rw [← hx30, ← hy70]
        norm_num
  · intro engine env hel
    rw [serverUpdates]
    simp only [progressValues_append, List.append_assoc, hcomplete]
    rw [show progressValues [updSP .downloading 0, updP 20, updSP .transcribing 25,
      updP 30] = [0, 20, 25, 30] from by decide, h7070, hel,
      show progressValues (callbackUpds .elevenlabs env.audioDuration) = [] from rfl]
    simp only [List.nil_append]
    have htail := tail_block env.extract env.hasApiKey
    refine pairwise_le_append_pivot 30 (by decide) ?_ (by decide) ?_
    · refine pairwise_le_append_pivot 70 (by decide) htail.1 (by decide) ?_
      intro y hy
      exact (htail.2 y hy).1
    · intro y hy
      rcases List.mem_append.mp hy with hy | hy
      · rw [h70mem y hy]
        norm_num
      · exact le_trans (by norm_num) (htail.2 y hy).1

/-! ## Job record lifecycle — claim C7 -/

/-- The job-record fields claim C7 is about.  `completedAt` is `true` once
`completed_at` has been set to a (non-null) timestamp. -/
structure JobRecord where
  status : Status
  progress : ℤ
  completedAt : Bool
deriving DecidableEq, Repr

/-- The job dict created by `start_processing` (`server.py` lines 543-557):
`status='pending'`, `progress=0`, `completed_at=None`. -/
def initialJob : JobRecord := ⟨.pending, 0, false⟩

/-- `update_job` (`server.py` lines 111-117): dict merge — fields present in
the update replace the record's, absent fields are unchanged.  No update ever
clears `completed_at`, so setting it is absorbing. -/
def applyUpd (r : JobRecord) (u : Upd) : JobRecord :=
  { status := u.status.getD r.status,
    progress := u.progress.getD r.progress,
    completedAt := r.completedAt || u.setsCompletedAt }

/-- The executions of the pipeline: either the full successful update sequence,
or — when a collaborator call raises after `k` updates — the first `k` updates
followed by the exception handler's error update (`server.py` lines 499-505).
No code follows the final update of the `try` block, so an exception can only
interrupt before it. -/
def IsExecution (full exec : List Upd) : Prop :=
  exec = full ∨ ∃ k < full.length, exec = full.take k ++ [errorUpd]

/-- An update is benign when it carries no terminal status and does not set
`completed_at`. -/
def benign (u : Upd) : Bool :=
  (match u.status with
   | none => true
   | some s => !s.isTerminal) && !u.setsCompletedAt

/-- Every callback update is benign (it only carries a progress value). -/
lemma benign_callbackUpds (k : TranscriberKind) (d : ℚ) :
    ∀ u ∈ callbackUpds k d, benign u = true := by
  cases k with
  | elevenlabs => simp [callbackUpds]
  | whisper =>
    intro u hu
    obtain ⟨ct, _, rfl⟩ := List.mem_map.mp hu
    rfl

/-- Every extraction update is benign. -/
lemma benign_extractUpds (e k : Bool) :
    ∀ u ∈ extractUpds e k, benign u = true := by
  cases e <;> cases k <;> decide

/-- Every full update sequence is a benign front followed by one terminal
update (the success update, or — for the broken explicit captions mode — the
error update). -/
lemma serverUpdates_shape (cfg : EngineCfg) (env : PipelineEnv) :
    ∃ front final, serverUpdates cfg env = front ++ [final] ∧
      (∀ u ∈ front, benign u = true) ∧ (final = completeUpd ∨ final = errorUpd) := by
  cases cfg with
  | auto =>
    by_cases hca : env.captionsAvailable
    · refine ⟨[updSP .downloading 5, updP 10, updSP .transcribing 15, updP 70, updP 70]
        ++ extractUpds env.extract env.hasApiKey, completeUpd, ?_, ?_, Or.inl rfl⟩
      · rw [serverUpdates, if_pos hca]
      · intro u hu
        rcases List.mem_append.mp hu with hu | hu
        · fin_cases hu <;> rfl
        · exact benign_extractUpds env.extract env.hasApiKey u hu
    · refine ⟨([updSP .downloading 5, updP 10, updSP .transcribing 15,
        updSP .downloading 15, updP 20, updSP .transcribing 25]
        ++ callbackUpds (get_transcriber "mlx-whisper") env.audioDuration
        ++ [updP 70, updP 70] ++ extractUpds env.extract env.hasApiKey),
        completeUpd, ?_, ?_, Or.inl rfl⟩
      · rw [serverUpdates, if_neg hca]
      · intro u hu
        rcases List.mem_append.mp hu with hu | hu
        rotate_left
        · exact benign_extractUpds env.extract env.hasApiKey u hu
        rcases List.mem_append.mp hu with hu | hu
        rotate_left
        · fin_cases hu <;> rfl
        rcases List.mem_append.mp hu with hu | hu
        · fin_cases hu <;> rfl
        · exact benign_callbackUpds _ env.audioDuration u hu
  | captions =>
    exact ⟨[updSP .downloading 0, updP 10, updSP .transcribing 15], errorUpd,
      rfl, by decide, Or.inr rfl⟩
  | explicit engine =>
    refine ⟨([updSP .downloading 0, updP 20, updSP .transcribing 25, updP 30]
      ++ callbackUpds (get_transcriber engine) env.audioDuration
      ++ [updP 70, updP 70] ++ extractUpds env.extract env.hasApiKey),
      completeUpd, rfl, ?_, Or.inl rfl⟩
    intro u hu
    rcases List.mem_append.mp hu with hu | hu
    rotate_left
    · exact benign_extractUpds env.extract env.hasApiKey u hu
    rcases List.mem_append.mp hu with hu | hu
    rotate_left
    · fin_cases hu <;> rfl
    rcases List.mem_append.mp hu with hu | hu
    · fin_cases hu <;> rfl
    · exact benign_callbackUpds _ env.audioDuration u hu

/-- Applying a benign update preserves a non-terminal, not-yet-completed
record. -/
lemma applyUpd_benign {r : JobRecord} {u : Upd} (hu : benign u = true)
    (hst : r.status.isTerminal = false) (hca : r.completedAt = false) :
    (applyUpd r u).status.isTerminal = false ∧ (applyUpd r u).completedAt = false := by
  rw [benign, Bool.and_eq_true] at hu
  obtain ⟨hu1, hu2⟩ := hu
  have h4 : u.setsCompletedAt = false := by
    cases hsc : u.setsCompletedAt
    · rfl
    · rw [hsc] at hu2
      simp at hu2
  constructor
  · cases hs : u.status with
    | none => simp [applyUpd, hs, hst]
    | some s =>
      rw [hs] at hu1
      have h3 : s.isTerminal = false := by simpa using hu1
      simp [applyUpd, hs, h3]
  · simp [applyUpd, hca, h4]

/-- Applying the terminal update yields a terminal, completed record. -/
lemma applyUpd_final (r : JobRecord) {t : Upd}
    (ht : t = completeUpd ∨ t = errorUpd) :
    (applyUpd r t).status.isTerminal = true ∧ (applyUpd r t).completedAt = true := by
  rcases ht with rfl | rfl <;>
    simp [applyUpd, completeUpd, errorUpd, Status.isTerminal]

/-- Scanning a benign front followed by one terminal update from a
non-terminal, not-completed record: `completedAt` holds exactly at terminal
records, and only the final record is terminal. -/
lemma scanl_front_final_inv :
    ∀ (bs : List Upd) (r : JobRecord) (t : Upd),
      (∀ u ∈ bs, benign u = true) → (t = completeUpd ∨ t = errorUpd) →
      r.status.isTerminal = false → r.completedAt = false →
      (∀ x ∈ List.scanl applyUpd r (bs ++ [t]),
        (x.completedAt = true ↔ x.status.isTerminal = true)) ∧
      (∀ x ∈ (List.scanl applyUpd r (bs ++ [t])).dropLast,
        x.status.isTerminal = false) := by
  intro bs
  induction bs with
  | nil =>
    intro r t hb ht hst hca
    have hscan : List.scanl applyUpd r ([] ++ [t]) = [r, applyUpd r t] := rfl
    rw [hscan]
    constructor
    · intro x hx
      rcases List.mem_cons.mp hx with rfl | hx
      · rw [hca, hst]
      · rcases List.mem_singleton.mp hx with rfl
        obtain ⟨h1, h2⟩ := applyUpd_final r ht
        rw [h1, h2]
    · intro x hx
      rcases List.mem_singleton.mp (by simpa using hx) with rfl
      exact hst
  | cons u bs ih =>
    intro r t hb ht hst hca
    obtain ⟨h1, h2⟩ := applyUpd_benign (hb u (List.mem_cons_self u bs)) hst hca
    obtain ⟨ih1, ih2⟩ := ih (applyUpd r u) t
      (fun v hv => hb v (List.mem_cons_of_mem u hv)) ht h1 h2
    have hscan : List.scanl applyUpd r ((u :: bs) ++ [t]) =
        r :: List.scanl applyUpd (applyUpd r u) (bs ++ [t]) := rfl
    rw [hscan]
    have hne : List.scanl applyUpd (applyUpd r u) (bs ++ [t]) ≠ [] := by
      cases hbt : bs ++ [t] with
      | nil => exact absurd hbt (by simp)
      | cons a l => simp [List.scanl]
    constructor
    · intro x hx
      rcases List.mem_cons.mp hx with rfl | hx
      · rw [hca, hst]
      · exact ih1 x hx
    · intro x hx
      rw [List.dropLast_cons_of_ne_nil hne, List.mem_cons] at hx
      rcases hx with rfl | hx
      · exact hst
      · exact ih2 x hx

/-- Every execution is a benign front followed by one terminal update. -/
lemma exec_shape (cfg : EngineCfg) (env : PipelineEnv) (exec : List Upd)
    (hex : IsExecution (serverUpdates cfg env) exec) :
    ∃ bs t, exec = bs ++ [t] ∧ (∀ u ∈ bs, benign u = true) ∧
      (t = completeUpd ∨ t = errorUpd) := by
  obtain ⟨front, final, hfull, hbenign, hfinal⟩ := serverUpdates_shape cfg env
  rcases hex with rfl | ⟨k, hk, rfl⟩
  · exact ⟨front, final, hfull, hbenign, hfinal⟩
  · refine ⟨(serverUpdates cfg env).take k, errorUpd, rfl, ?_, Or.inr rfl⟩
    intro u hu
    rw [hfull] at hk hu
    have hk' : k ≤ front.length := by
      rw [List.length_append, List.length_singleton] at hk
      omega
    rw [List.take_append_eq_append_take, Nat.sub_eq_zero_of_le hk',
      List.take_zero, List.append_nil] at hu
    exact hbenign u ((List.take_sublist k front).mem hu)

/-! ### Claim C7 -/

/-- C7: on every execution of the pipeline (every engine configuration, every
collaborator outcome, including runs cut short by an exception),
`completed_at` is set by exactly one update, every job record reachable
through the updates satisfies "`completed_at` is non-null iff `status` is
`complete` or `error`", and only the final record is terminal — hence after a
terminal status is recorded no further update changes the record
(in particular its status). -/
theorem completedAt_iff_terminal :
    ∀ (cfg : EngineCfg) (env : PipelineEnv) (exec : List Upd),
      IsExecution (serverUpdates cfg env) exec →
      exec.countP (·.setsCompletedAt) = 1 ∧
      (∀ r ∈ List.scanl applyUpd initialJob exec,
        (r.completedAt = true ↔ r.status.isTerminal = true)) ∧
      (∀ r ∈ (List.scanl applyUpd initialJob exec).dropLast,
        r.status.isTerminal = false) := by
  intro cfg env exec hex
  obtain ⟨bs, t, rfl, hb, ht⟩ := exec_shape cfg env exec hex
  obtain ⟨hiff, hdrop⟩ := scanl_front_final_inv bs initialJob t hb ht rfl rfl
  refine ⟨?_, hiff, hdrop⟩
  rw [List.countP_append, List.countP_eq_zero.mpr, Nat.zero_add]
  · rcases ht with rfl | rfl <;> rfl
  · intro u hu
    have hbu := hb u hu
    rw [benign, Bool.and_eq_true] at hbu
    simp only [Bool.not_eq_true]
    simpa using hbu.2

/-- Witness for `completedAt_iff_terminal`: the full run of the explicit
captions configuration sets `completed_at` exactly once, and the record after
its first update (status `downloading`) is non-terminal with `completed_at`
unset. -/
theorem completedAt_iff_terminal_witness :
    (serverUpdates .captions ⟨true, 100, true, true⟩).countP (·.setsCompletedAt) = 1 ∧
    (((⟨Status.downloading, 0, false⟩ : JobRecord).completedAt = true) ↔
      ((⟨Status.downloading, 0, false⟩ : JobRecord).status.isTerminal = true)) := by
  have h := completedAt_iff_terminal .captions ⟨true, 100, true, true⟩
    (serverUpdates .captions ⟨true, 100, true, true⟩) (Or.inl rfl)
  exact ⟨h.1, h.2.1 ⟨Status.downloading, 0, false⟩ (by decide)⟩

/-- Witness for `progress_monotonicity_amended`: the ElevenLabs-engine clause
applied at the concrete engine string `"scribe"`. -/
theorem progress_monotonicity_amended_witness :
    List.Pairwise (· ≤ ·)
      (progressValues (serverUpdates (.explicit "scribe") ⟨true, 300, true, true⟩)) :=
  progress_monotonicity_amended.2.2.2 "scribe" ⟨true, 300, true, true⟩
    (by rw [get_transcriber]; simp)
